import Mathlib

/-!
Verification of `BatchingChannel` (src/batching_channel.go).

The Go implementation runs a single goroutine `batchingBuffer` that owns
`ch.buffer` and arbitrates, via a `select`, between

  * receiving one value from `ch.input` (append to the buffer, or observe
    that the write side was closed),
  * sending the whole buffer on `ch.output` (then resetting it to nil),
  * answering a length query on `ch.length`.

After every committed select case the loop recomputes which channels are
non-nil: with an empty buffer only the input is selectable; with a
non-empty buffer at/over a bounded capacity only the output is; otherwise
both are.  The loop exits once close was observed and the buffer is empty,
then closes `ch.output` and `ch.length`.

We embed the loop shallowly: a `Config` holds the goroutine's mutable
state (the buffer and whether the closing of `ch.input` has been
observed), the nil-ness of the recomputed `input`/`output` variables is a
function of the `Config`, and a `step` function executes one select
commitment.  An arbitrary interleaving of writers, readers and length
queriers is a list of events; `run` interprets it, failing (`none`) on an
event whose select case is not enabled, and collecting what the loop sent
to readers and length queriers.
-/

namespace Channels

/-- Modelled from the spec: the `BufferCap` constant `None` is declared in
`channels.go`, which is not part of src/; the spec fixes it as the
zero/unbuffered capacity. -/
def None : Int := 0

/-- Modelled from the spec: the `BufferCap` constant `Infinity` is declared
in `channels.go`, which is not part of src/; the spec fixes it as the
negative sentinel denoting unbounded capacity. -/
def Infinity : Int := -1

/-- State owned by the `batchingBuffer` goroutine: `ch.buffer`, plus
whether the loop has already observed that `ch.input` was closed (in the
source: `nextInput == nil`). -/
structure Config (α : Type) where
  buffer : List α
  closed : Bool
deriving DecidableEq

/-- The goroutine starts with a nil buffer and `nextInput = ch.input`. -/
def Config.init (α : Type) : Config α := ⟨[], false⟩

/-- The loop condition `input != nil || output != nil` fails, and the loop
terminates, exactly when close was observed and the buffer is empty: in
every other case the recomputation keeps at least one of the two channels
non-nil. -/
def isDone (c : Config α) : Bool := c.closed && c.buffer.isEmpty

/-- Whether the recomputed `input` variable is non-nil, i.e. the loop is
willing to receive from `ch.input`.  Mirrors lines 80-90 of the source:
empty buffer or a not-yet-full buffer sets `input = nextInput` (nil iff
close was observed); a buffer at/over a bounded capacity sets
`input = nil`. -/
def inputActive (sz : Int) (c : Config α) : Bool :=
  if c.buffer.isEmpty then !c.closed
  else if sz ≠ Infinity ∧ sz ≤ (c.buffer.length : Int) then false
  else !c.closed

/-- Whether the recomputed `output` variable is non-nil, i.e. the loop is
willing to send the current buffer to a reader: exactly when the buffer is
non-empty. -/
def outputActive (c : Config α) : Bool := !c.buffer.isEmpty

/-- One select commitment, from the loop's point of view: a writer hands
over a value, the loop observes that `ch.input` was closed, a reader takes
the batch, or a length query is answered. -/
inductive Ev (α : Type) where
  | submit (v : α)
  | closeObs
  | read
  | lenQuery
deriving DecidableEq

/-- What the loop emits to the outside on one select commitment: a batch
sent on `ch.output`, or a count sent on `ch.length`. -/
inductive BOut (α : Type) where
  | batch (b : List α)
  | lenOut (n : Nat)
deriving DecidableEq

/-- One iteration of the `batchingBuffer` loop committing to the given
select case; `none` when that case is not enabled (its channel is nil, or
the loop has already terminated). -/
def step (sz : Int) (c : Config α) : Ev α → Option (Config α × Option (BOut α))
  | .submit v =>
      if inputActive sz c then some ({ c with buffer := c.buffer ++ [v] }, none)
      else none
  | .closeObs =>
      if inputActive sz c then some ({ c with closed := true }, none)
      else none
  | .read =>
      if outputActive c then some ({ c with buffer := [] }, some (.batch c.buffer))
      else none
  | .lenQuery =>
      if isDone c then none
      else some (c, some (.lenOut c.buffer.length))

/-- Interpret a sequence of select commitments, collecting everything the
loop sent on `ch.output` and `ch.length` in order; `none` when some event
in the sequence was not enabled at its point. -/
def run (sz : Int) : Config α → List (Ev α) → Option (Config α × List (BOut α))
  | c, [] => some (c, [])
  | c, e :: evs =>
    match step sz c e with
    | none => none
    | some (c', o) =>
      match run sz c' evs with
      | none => none
      | some (c'', outs) => some (c'', o.toList ++ outs)

/-- The values submitted in an event sequence, in order. -/
def submitsOf : List (Ev α) → List α
  | [] => []
  | .submit v :: evs => v :: submitsOf evs
  | .closeObs :: evs => submitsOf evs
  | .read :: evs => submitsOf evs
  | .lenQuery :: evs => submitsOf evs

/-- The batches delivered to readers among the loop's emissions, in
order. -/
def batchesOf : List (BOut α) → List (List α)
  | [] => []
  | .batch b :: outs => b :: batchesOf outs
  | .lenOut _ :: outs => batchesOf outs

/-- The user-facing handle: the immutable configured size together with the
loop state. -/
structure BatchingChannel (α : Type) where
  size : Int
  state : Config α
deriving DecidableEq

/-- The failure raised by `NewBatchingChannel` for a rejected capacity
(both panics of lines 14-19 of the source). -/
inductive CapErr where
  | invalidCapacity
deriving DecidableEq

/-- `NewBatchingChannel`: panics on `size == None` and on a negative size
other than `Infinity`; otherwise returns a channel with an empty buffer
and the goroutine started. -/
def NewBatchingChannel (α : Type) (size : Int) : Except CapErr (BatchingChannel α) :=
  if size = None then .error .invalidCapacity
  else if size < 0 ∧ size ≠ Infinity then .error .invalidCapacity
  else .ok ⟨size, Config.init α⟩

/-- `Cap`: returns the configured size. -/
def Cap (ch : BatchingChannel α) : Int := ch.size

/-- Outcome of a caller's `ch.In() <- v` attempt. -/
inductive SubmitRes (α : Type) where
  | accepted (c : Config α)
  | blocked
  | closedWriteEndpoint
deriving DecidableEq

/-- A caller sending on `ch.In()`.  After `Close()` has closed `ch.input`,
a Go send on the closed channel faults in the sending caller — the
signalled write-after-close error — and hands the loop nothing; the loop
goroutine itself is untouched.  While `ch.input` is open the caller blocks
until the loop's `input` variable is selectable, and then the loop appends
the value. -/
def submitCall (userClosed : Bool) (sz : Int) (c : Config α) (v : α) : SubmitRes α :=
  if userClosed then .closedWriteEndpoint
  else if inputActive sz c then .accepted { c with buffer := c.buffer ++ [v] }
  else .blocked

/-- A caller's `Len()`.  While the loop runs, the loop services the query
with `len(ch.buffer)`; after the loop terminated it has closed `ch.length`
(line 95), and a Go receive from a closed `chan int` yields the zero value
`0` immediately. -/
def lenCall (c : Config α) : Nat :=
  if isDone c then 0 else c.buffer.length

/-! ### Basic inversion lemmas about `step` and `run` -/

lemma step_submit_some {sz : Int} {c c1 : Config α} {v : α} {o : Option (BOut α)}
    (h : step sz c (Ev.submit v) = some (c1, o)) :
    inputActive sz c = true ∧ c1 = { c with buffer := c.buffer ++ [v] } ∧ o = none := by
  simp only [step] at h
  split at h
  · rename_i hin
    simp only [Option.some.injEq, Prod.mk.injEq] at h
    exact ⟨hin, h.1.symm, h.2.symm⟩
  · simp at h

lemma step_closeObs_some {sz : Int} {c c1 : Config α} {o : Option (BOut α)}
    (h : step sz c Ev.closeObs = some (c1, o)) :
    inputActive sz c = true ∧ c1 = { c with closed := true } ∧ o = none := by
  simp only [step] at h
  split at h
  · rename_i hin
    simp only [Option.some.injEq, Prod.mk.injEq] at h
    exact ⟨hin, h.1.symm, h.2.symm⟩
  · simp at h

lemma step_read_some {sz : Int} {c c1 : Config α} {o : Option (BOut α)}
    (h : step sz c Ev.read = some (c1, o)) :
    outputActive c = true ∧ c1 = { c with buffer := [] } ∧ o = some (.batch c.buffer) := by
  simp only [step] at h
  split at h
  · rename_i hout
    simp only [Option.some.injEq, Prod.mk.injEq] at h
    exact ⟨hout, h.1.symm, h.2.symm⟩
  · simp at h

lemma step_lenQuery_some {sz : Int} {c c1 : Config α} {o : Option (BOut α)}
    (h : step sz c Ev.lenQuery = some (c1, o)) :
    isDone c = false ∧ c1 = c ∧ o = some (.lenOut c.buffer.length) := by
  simp only [step] at h
  split at h
  · simp at h
  · rename_i hd
    simp only [Option.some.injEq, Prod.mk.injEq] at h
    exact ⟨by simpa using hd, h.1.symm, h.2.symm⟩

lemma run_cons_some {sz : Int} {c c' : Config α} {e : Ev α} {evs : List (Ev α)}
    {outs : List (BOut α)} (h : run sz c (e :: evs) = some (c', outs)) :
    ∃ c1 o outs1, step sz c e = some (c1, o) ∧ run sz c1 evs = some (c', outs1) ∧
      outs = o.toList ++ outs1 := by
  simp only [run] at h
  cases hs : step sz c e with
  | none => rw [hs] at h; simp at h
  | some p =>
    obtain ⟨c1, o⟩ := p
    rw [hs] at h
    dsimp only at h
    cases hr : run sz c1 evs with
    | none => rw [hr] at h; simp at h
    | some q =>
      obtain ⟨c2, outs1⟩ := q
      rw [hr] at h
      dsimp only at h
      simp only [Option.some.injEq, Prod.mk.injEq] at h
      exact ⟨c1, o, outs1, rfl, by rw [hr, h.1], h.2.symm⟩

lemma run_append_some {sz : Int} {c c' : Config α} {outs : List (BOut α)}
    {l1 : List (Ev α)} (l2 : List (Ev α)) (h : run sz c l1 = some (c', outs)) :
    run sz c (l1 ++ l2) =
      Option.map (fun p => (p.1, outs ++ p.2)) (run sz c' l2) := by
  induction l1 generalizing c outs with
  | nil =>
    simp only [run, Option.some.injEq, Prod.mk.injEq] at h
    rw [List.nil_append, h.1, ← h.2]
    cases run sz c' l2 <;> simp
  | cons e l1 ih =>
    obtain ⟨c1, o, outs1, hs, hr, rfl⟩ := run_cons_some h
    rw [List.cons_append]
    simp only [run, hs]
    rw [ih hr]
    cases run sz c' l2 <;> simp

/-! ### Unbounded capacity: a single drain takes everything -/

lemma inputActive_infinity (c : Config α) : inputActive Infinity c = !c.closed := by
  unfold inputActive
  split
  · rfl
  · rw [if_neg]
    intro hcond
    exact hcond.1 rfl

lemma run_submits_infinity (vs : List α) (c : Config α) (h : c.closed = false) :
    run Infinity c (vs.map Ev.submit) =
      some ({ c with buffer := c.buffer ++ vs }, []) := by
  induction vs generalizing c h with
  | nil => simp [run]
  | cons v vs ih =>
    have hin : inputActive Infinity c = true := by
      rw [inputActive_infinity, h]; rfl
    simp only [List.map_cons, run, step, hin, if_true]
    rw [ih { c with buffer := c.buffer ++ [v] } h]
    simp

/-- C1: a successful read atomically takes the entire current buffer as one
batch and resets the buffer to empty; on an unbounded channel, submitting a
non-empty sequence `vs` and then draining once is a valid execution that
delivers exactly one batch containing all of `vs` in submission order. -/
theorem single_drain_one_batch (vs : List α) (h : vs ≠ []) :
    run Infinity (Config.init α) (vs.map Ev.submit ++ [Ev.read]) =
      some (Config.init α, [BOut.batch vs]) := by
  have h1 : run Infinity (Config.init α) (vs.map Ev.submit) =
      some (⟨vs, false⟩, []) := by
    simpa [Config.init] using run_submits_infinity vs (Config.init α) rfl
  rw [run_append_some _ h1]
  have hout : outputActive (⟨vs, false⟩ : Config α) = true := by
    cases vs with
    | nil => exact absurd rfl h
    | cons a l => rfl
  simp [run, step, hout, Config.init]

/-- Witness for C1 at a concrete input. -/
theorem single_drain_one_batch_witness :
    run Infinity (Config.init Nat) ([1, 2, 3].map Ev.submit ++ [Ev.read]) =
      some (Config.init Nat, [BOut.batch [1, 2, 3]]) :=
  single_drain_one_batch [1, 2, 3] (by decide)

/-! ### Bounded capacity: the buffer and every batch stay within `N` -/

lemma inputActive_bounded_lt {N : Nat} (hN : 0 < N) {c : Config α}
    (h : inputActive (N : Int) c = true) : c.buffer.length < N := by
  unfold inputActive at h
  split at h
  · rename_i he
    have hb : c.buffer = [] := by simpa using he
    simpa [hb] using hN
  · split at h
    · simp at h
    · rename_i hne hcond
      push_neg at hcond
      have h1 : (N : Int) ≠ Infinity := by
        simp only [Infinity]
        omega
      have h2 := hcond h1
      omega

lemma run_buffer_le {N : Nat} (hN : 0 < N) {evs : List (Ev α)} {c c' : Config α}
    {outs : List (BOut α)} (hc : c.buffer.length ≤ N)
    (h : run (N : Int) c evs = some (c', outs)) :
    c'.buffer.length ≤ N ∧ ∀ b ∈ batchesOf outs, b.length ≤ N := by
  induction evs generalizing c outs with
  | nil =>
    simp only [run, Option.some.injEq, Prod.mk.injEq] at h
    refine ⟨?_, ?_⟩
    · rw [← h.1]; exact hc
    · rw [← h.2]; simp [batchesOf]
  | cons e evs ih =>
    obtain ⟨c1, o, outs1, hs, hr, rfl⟩ := run_cons_some h
    cases e with
    | submit v =>
      obtain ⟨hin, rfl, rfl⟩ := step_submit_some hs
      have hlt := inputActive_bounded_lt hN hin
      have hc1 : ({ c with buffer := c.buffer ++ [v] } : Config α).buffer.length ≤ N := by
        simp
        omega
      obtain ⟨g1, g2⟩ := ih hc1 hr
      exact ⟨g1, by simpa [batchesOf] using g2⟩
    | closeObs =>
      obtain ⟨hin, rfl, rfl⟩ := step_closeObs_some hs
      obtain ⟨g1, g2⟩ := ih (by simpa using hc) hr
      exact ⟨g1, by simpa [batchesOf] using g2⟩
    | read =>
      obtain ⟨hout, rfl, rfl⟩ := step_read_some hs
      obtain ⟨g1, g2⟩ := ih (by simp) hr
      refine ⟨g1, ?_⟩
      intro b hb
      simp only [Option.toList_some, List.singleton_append, batchesOf,
        List.mem_cons] at hb
      rcases hb with rfl | hb
      · exact hc
      · exact g2 b hb
    | lenQuery =>
      obtain ⟨hd, rfl, rfl⟩ := step_lenQuery_some hs
      obtain ⟨g1, g2⟩ := ih hc hr
      refine ⟨g1, ?_⟩
      intro b hb
      simp only [Option.toList_some, List.singleton_append, batchesOf] at hb
      exact g2 b hb

/-- C2: with bounded capacity `N`, along every valid execution the buffer
never holds more than `N` values at a recompute point, and no single
delivered batch contains more than `N` elements. -/
theorem bounded_batches_le_cap {N : Nat} (hN : 0 < N) (evs : List (Ev α))
    {c : Config α} {outs : List (BOut α)}
    (h : run (N : Int) (Config.init α) evs = some (c, outs)) :
    (∀ b ∈ batchesOf outs, b.length ≤ N) ∧ c.buffer.length ≤ N := by
  have hg := run_buffer_le hN (by simp [Config.init]) h
  exact ⟨hg.2, hg.1⟩

/-- Witness for C2 at a concrete input. -/
theorem bounded_batches_le_cap_witness :
    [(0 : Nat)].length ≤ 1 ∧ (⟨[1], false⟩ : Config Nat).buffer.length ≤ 1 := by
  have hg := bounded_batches_le_cap (by decide) [Ev.submit 0, Ev.read, Ev.submit 1]
    (by decide :
      run ((1 : Nat) : Int) (Config.init Nat) [Ev.submit 0, Ev.read, Ev.submit 1] =
        some (⟨[1], false⟩, [BOut.batch [0]]))
  exact ⟨hg.1 [0] (by decide), hg.2⟩

/-! ### Batches are non-empty -/

lemma run_batches_ne_nil {sz : Int} {evs : List (Ev α)} {c c' : Config α}
    {outs : List (BOut α)} (h : run sz c evs = some (c', outs)) :
    ∀ b ∈ batchesOf outs, b ≠ [] := by
  induction evs generalizing c outs with
  | nil =>
    simp only [run, Option.some.injEq, Prod.mk.injEq] at h
    rw [← h.2]
    simp [batchesOf]
  | cons e evs ih =>
    obtain ⟨c1, o, outs1, hs, hr, rfl⟩ := run_cons_some h
    cases e with
    | submit v =>
      obtain ⟨hin, rfl, rfl⟩ := step_submit_some hs
      simpa using ih hr
    | closeObs =>
      obtain ⟨hin, rfl, rfl⟩ := step_closeObs_some hs
      simpa using ih hr
    | read =>
      obtain ⟨hout, rfl, rfl⟩ := step_read_some hs
      intro b hb
      simp only [Option.toList_some, List.singleton_append, batchesOf,
        List.mem_cons] at hb
      rcases hb with rfl | hb
      · simpa [outputActive] using hout
      · exact ih hr b hb
    | lenQuery =>
      obtain ⟨hd, rfl, rfl⟩ := step_lenQuery_some hs
      intro b hb
      simp only [Option.toList_some, List.singleton_append, batchesOf] at hb
      exact ih hr b hb

/-- C3: every batch delivered to a reader along any valid execution is a
non-empty (hence non-nil) sequence: the output edge is only enabled when
the buffer holds at least one value. -/
theorem delivered_batches_nonempty (sz : Int) (evs : List (Ev α))
    {c : Config α} {outs : List (BOut α)}
    (h : run sz (Config.init α) evs = some (c, outs)) :
    ∀ b ∈ batchesOf outs, b ≠ [] :=
  run_batches_ne_nil h

/-- Witness for C3 at a concrete input. -/
theorem delivered_batches_nonempty_witness :
    [(0 : Nat)] ∈ batchesOf [BOut.batch [(0 : Nat)]] ∧ [(0 : Nat)] ≠ [] := by
  have hg := delivered_batches_nonempty 2 [Ev.submit 0, Ev.read]
    (by decide :
      run 2 (Config.init Nat) [Ev.submit 0, Ev.read] =
        some (⟨[], false⟩, [BOut.batch [0]]))
  exact ⟨by decide, hg [0] (by decide)⟩

/-! ### Delivered batches partition the submission sequence in order -/

lemma run_join_submits {sz : Int} {evs : List (Ev α)} {c c' : Config α}
    {outs : List (BOut α)} (h : run sz c evs = some (c', outs)) :
    (batchesOf outs).flatten ++ c'.buffer = c.buffer ++ submitsOf evs := by
  induction evs generalizing c outs with
  | nil =>
    simp only [run, Option.some.injEq, Prod.mk.injEq] at h
    rw [← h.1, ← h.2]
    simp [batchesOf, submitsOf]
  | cons e evs ih =>
    obtain ⟨c1, o, outs1, hs, hr, rfl⟩ := run_cons_some h
    cases e with
    | submit v =>
      obtain ⟨hin, rfl, rfl⟩ := step_submit_some hs
      have hih := ih hr
      simp only [Option.toList_none, List.nil_append, submitsOf]
      rw [hih]
      simp
    | closeObs =>
      obtain ⟨hin, rfl, rfl⟩ := step_closeObs_some hs
      have hih := ih hr
      simp only [Option.toList_none, List.nil_append, submitsOf]
      rw [hih]
    | read =>
      obtain ⟨hout, rfl, rfl⟩ := step_read_some hs
      have hih := ih hr
      simp only [Option.toList_some, List.singleton_append, List.append_eq,
        List.nil_append, batchesOf, List.flatten_cons, submitsOf] at hih ⊢
      rw [List.append_assoc, hih]
    | lenQuery =>
      obtain ⟨hd, rfl, rfl⟩ := step_lenQuery_some hs
      have hih := ih hr
      simp only [Option.toList_some, List.singleton_append, List.nil_append,
        batchesOf, submitsOf]
      exact hih

/-- C4: along every valid execution, the delivered batches concatenated in
delivery order, followed by the values still buffered, are exactly the
submitted values in submission order: order is preserved within each
batch, each batch holds precisely the values submitted after the previous
batch was handed off, and no value is split, lost or duplicated. -/
theorem batches_partition_submissions (sz : Int) (evs : List (Ev α))
    {c : Config α} {outs : List (BOut α)}
    (h : run sz (Config.init α) evs = some (c, outs)) :
    (batchesOf outs).flatten ++ c.buffer = submitsOf evs := by
  simpa [Config.init] using run_join_submits h

/-- Witness for C4 at a concrete input. -/
theorem batches_partition_submissions_witness :
    (batchesOf [BOut.batch [(0 : Nat), 1]]).flatten ++
        (⟨[2], false⟩ : Config Nat).buffer =
      submitsOf [Ev.submit 0, Ev.submit 1, Ev.read, Ev.submit 2] :=
  batches_partition_submissions 2 [Ev.submit 0, Ev.submit 1, Ev.read, Ev.submit 2]
    (by decide)

/-! ### Close: drain the remainder, then terminate -/

/-- C5: in a valid execution that has observed `close()`: while values
remain buffered the loop has not terminated and a read hands the whole
remainder over as a normal batch, after which the loop is terminated (and
only then closes the read and length endpoints); with an empty buffer the
loop is terminated. -/
theorem close_drain_then_terminate (sz : Int) (evs : List (Ev α))
    {c : Config α} {outs : List (BOut α)}
    (h : run sz (Config.init α) evs = some (c, outs)) (hcl : c.closed = true) :
    (c.buffer ≠ [] →
      isDone c = false ∧
      run sz (Config.init α) (evs ++ [Ev.read]) =
        some (⟨[], true⟩, outs ++ [BOut.batch c.buffer]) ∧
      isDone (⟨[], true⟩ : Config α) = true) ∧
    (c.buffer = [] → isDone c = true) := by
  obtain ⟨buf, cl⟩ := c
  simp only [Config.closed] at hcl
  subst hcl
  constructor
  · intro hne
    simp only [Config.buffer] at hne
    have hout : outputActive (⟨buf, true⟩ : Config α) = true := by
      cases buf with
      | nil => exact absurd rfl hne
      | cons a l => rfl
    refine ⟨?_, ?_, rfl⟩
    · simp [isDone, hne]
    · rw [run_append_some _ h]
      simp [run, step, hout]
  · intro he
    simp only [Config.buffer] at he
    simp [isDone, he]

/-- Witness for C5 at a concrete input. -/
theorem close_drain_then_terminate_witness :
    isDone (⟨[0], true⟩ : Config Nat) = false ∧
      run 5 (Config.init Nat) ([Ev.submit 0, Ev.closeObs] ++ [Ev.read]) =
        some (⟨[], true⟩, [] ++ [BOut.batch (⟨[0], true⟩ : Config Nat).buffer]) ∧
      isDone (⟨[], true⟩ : Config Nat) = true := by
  have hg := close_drain_then_terminate 5 [Ev.submit 0, Ev.closeObs]
    (by decide :
      run 5 (Config.init Nat) [Ev.submit 0, Ev.closeObs] = some (⟨[0], true⟩, []))
    (by decide)
  exact hg.1 (by decide)

/-! ### Construction-time capacity validation -/

/-- C6: construction with capacity `None` (zero/unbuffered) panics with the
invalid-capacity error, as does a negative capacity other than the
`Infinity` sentinel; a positive capacity or `Infinity` succeeds, and the
returned channel's `Cap` reports the configured value. -/
theorem new_batching_channel_capacity :
    (∀ α : Type, NewBatchingChannel α None = Except.error CapErr.invalidCapacity) ∧
    (∀ (α : Type) (n : Int), n < 0 → n ≠ Infinity →
      NewBatchingChannel α n = Except.error CapErr.invalidCapacity) ∧
    (∀ (α : Type) (n : Int), 0 < n →
      ∃ ch : BatchingChannel α, NewBatchingChannel α n = Except.ok ch ∧ Cap ch = n) ∧
    (∀ α : Type, ∃ ch : BatchingChannel α,
      NewBatchingChannel α Infinity = Except.ok ch ∧ Cap ch = Infinity) := by
  refine ⟨fun α => ?_, fun α n h1 h2 => ?_, fun α n h => ?_, fun α => ?_⟩
  · simp [NewBatchingChannel]
  · rw [NewBatchingChannel, if_neg, if_pos ⟨h1, h2⟩]
    intro he
    rw [he] at h1
    simp only [None] at h1
    omega
  · refine ⟨⟨n, Config.init α⟩, ?_, rfl⟩
    rw [NewBatchingChannel, if_neg, if_neg]
    · rintro ⟨hlt, -⟩
      omega
    · simp only [None]
      omega
  · refine ⟨⟨Infinity, Config.init α⟩, ?_, rfl⟩
    rw [NewBatchingChannel, if_neg, if_neg]
    · rintro ⟨-, hne⟩
      exact hne rfl
    · simp only [Infinity, None]
      omega

/-- Witness for C6 at concrete capacities. -/
theorem new_batching_channel_capacity_witness :
    NewBatchingChannel Nat None = Except.error CapErr.invalidCapacity ∧
    NewBatchingChannel Nat (-2) = Except.error CapErr.invalidCapacity ∧
    (∃ ch : BatchingChannel Nat,
      NewBatchingChannel Nat 3 = Except.ok ch ∧ Cap ch = 3) ∧
    (∃ ch : BatchingChannel Nat,
      NewBatchingChannel Nat Infinity = Except.ok ch ∧ Cap ch = Infinity) :=
  ⟨new_batching_channel_capacity.1 Nat,
   new_batching_channel_capacity.2.1 Nat (-2) (by decide) (by decide),
   new_batching_channel_capacity.2.2.1 Nat 3 (by decide),
   new_batching_channel_capacity.2.2.2 Nat⟩

/-! ### At capacity, the writer edge is off and the reader edge is on -/

/-- C7: whenever a reachable state of a channel with bounded capacity `N`
holds a buffer at or over capacity, the writer edge is disabled, the
reader edge is enabled, and no submit can be committed in that state. -/
theorem at_capacity_refuses_writes {N : Nat} (hN : 0 < N) (evs : List (Ev α))
    {c : Config α} {outs : List (BOut α)}
    (_reach : run (N : Int) (Config.init α) evs = some (c, outs))
    (hfull : N ≤ c.buffer.length) :
    inputActive (N : Int) c = false ∧ outputActive c = true ∧
      ∀ v : α, step (N : Int) c (Ev.submit v) = none := by
  have hne : c.buffer ≠ [] := by
    intro he
    rw [he] at hfull
    simp only [List.length_nil, Nat.le_zero] at hfull
    omega
  have hin : inputActive (N : Int) c = false := by
    cases hb : inputActive (N : Int) c
    · rfl
    · exact absurd (inputActive_bounded_lt hN hb) (by omega)
  refine ⟨hin, ?_, fun v => by simp [step, hin]⟩
  cases hbuf : c.buffer with
  | nil => exact absurd hbuf hne
  | cons a l => simp [outputActive, hbuf]

/-- Witness for C7 at a concrete input. -/
theorem at_capacity_refuses_writes_witness :
    inputActive ((1 : Nat) : Int) (⟨[0], false⟩ : Config Nat) = false ∧
      outputActive (⟨[0], false⟩ : Config Nat) = true ∧
      step ((1 : Nat) : Int) (⟨[0], false⟩ : Config Nat) (Ev.submit 9) = none := by
  have hg := at_capacity_refuses_writes (by decide) [Ev.submit 0]
    (by decide :
      run ((1 : Nat) : Int) (Config.init Nat) [Ev.submit 0] =
        some (⟨[0], false⟩, []))
    (by decide)
  exact ⟨hg.1, hg.2.1, hg.2.2 9⟩

/-! ### Length queries are purely observational -/

/-- C8: while the loop runs, servicing a length query answers with the
current number of buffered-but-undelivered values and mutates nothing: the
resulting configuration (buffer and open/closed status) is the very one the
query was serviced in, and the configured capacity is untouched. -/
theorem len_query_observational (sz : Int) (c : Config α) (h : isDone c = false) :
    step sz c Ev.lenQuery = some (c, some (BOut.lenOut c.buffer.length)) := by
  simp [step, h]

/-- Witness for C8 at a concrete input. -/
theorem len_query_observational_witness :
    step 2 (⟨[5], false⟩ : Config Nat) Ev.lenQuery =
      some (⟨[5], false⟩, some (BOut.lenOut 1)) :=
  len_query_observational 2 ⟨[5], false⟩ (by decide)

/-! ### Writes after close are rejected without touching the loop -/

/-- C9: a submit attempted after `Close()` is rejected with the
write-after-close signal raised in the calling writer; it is never
accepted, so no value is appended to the buffer and the arbitration loop's
state is untouched. -/
theorem submit_after_close_rejected (sz : Int) (c : Config α) (v : α) :
    submitCall true sz c v = SubmitRes.closedWriteEndpoint ∧
      ∀ c1 : Config α, submitCall true sz c v ≠ SubmitRes.accepted c1 := by
  refine ⟨rfl, fun c1 hacc => ?_⟩
  simp [submitCall] at hacc

/-- Witness for C9 at a concrete input. -/
theorem submit_after_close_rejected_witness :
    submitCall true 2 (Config.init Nat) 7 = SubmitRes.closedWriteEndpoint ∧
      submitCall true 2 (Config.init Nat) 7 ≠ SubmitRes.accepted (Config.init Nat) := by
  have hg := submit_after_close_rejected 2 (Config.init Nat) 7
  exact ⟨hg.1, hg.2 (Config.init Nat)⟩

/-! ### Len after termination -/

/-- C10: once a valid execution has terminated the loop (close observed and
buffer drained), a `Len()` call returns 0 immediately from the closed
length channel — exactly the answer an open loop with an empty buffer
would give, so the two are indistinguishable through `Len()`. -/
theorem len_after_termination (sz : Int) (evs : List (Ev α))
    {c : Config α} {outs : List (BOut α)}
    (_reach : run sz (Config.init α) evs = some (c, outs)) (hd : isDone c = true) :
    lenCall c = 0 ∧ lenCall c = lenCall (Config.init α) := by
  refine ⟨by simp [lenCall, hd], ?_⟩
  have h2 : lenCall (Config.init α) = 0 := rfl
  rw [h2]
  simp [lenCall, hd]

/-- Witness for C10 at a concrete input. -/
theorem len_after_termination_witness :
    lenCall (⟨[], true⟩ : Config Nat) = 0 ∧
      lenCall (⟨[], true⟩ : Config Nat) = lenCall (Config.init Nat) :=
  len_after_termination 3 [Ev.closeObs]
    (by decide :
      run 3 (Config.init Nat) [Ev.closeObs] = some (⟨[], true⟩, []))
    (by decide)

end Channels
